import Mathlib

/-!
Shallow embedding of the tadoku_stats extraction-and-ranking pipeline
(src/main.rs) and proofs about it.

Modelling conventions:
* Rust `f64` values are modelled as exact rationals (`ℚ`).  The program reads
  decimal literals from web pages and JSON, and the spec's own tolerance rules
  (2-decimal display, 0.01 threshold) make the rational model faithful for
  every value the program manipulates.
* Rust `HashMap<String, V>` is modelled by `HMap V`, an association list whose
  insert overwrites the previous binding of the key.  Iteration order of a
  hash map is arbitrary; every theorem that depends on key enumeration is
  stated so that it is invariant under permutation of the enumerated keys.
* Rust `String` comparison (`Ord` on `String`) is byte-wise lexicographic on
  the UTF-8 encoding, which coincides with lexicographic comparison of the
  scalar-value sequences; we model it by `strCmp` below, lexicographic on
  `Char` (Unicode scalar values).
-/

/-- Three-way comparison of naturals, as Rust's `usize::cmp`. -/
def natCmp (a b : Nat) : Ordering :=
  if a < b then Ordering.lt else if b < a then Ordering.gt else Ordering.eq

theorem natCmp_eq_eq {a b : Nat} : natCmp a b = Ordering.eq ↔ a = b := by
  unfold natCmp
  rcases Nat.lt_trichotomy a b with h | h | h
  · simp [h, Nat.ne_of_lt h]
  · simp [h, Nat.lt_irrefl]
  · simp [Nat.lt_asymm h, h, (Nat.ne_of_lt h).symm]

theorem natCmp_eq_lt {a b : Nat} : natCmp a b = Ordering.lt ↔ a < b := by
  unfold natCmp
  rcases Nat.lt_trichotomy a b with h | h | h
  · simp [h]
  · simp [h, Nat.lt_irrefl]
  · simp [Nat.lt_asymm h, h]

theorem natCmp_eq_gt {a b : Nat} : natCmp a b = Ordering.gt ↔ b < a := by
  unfold natCmp
  rcases Nat.lt_trichotomy a b with h | h | h
  · simp [h, Nat.lt_asymm h]
  · simp [h, Nat.lt_irrefl]
  · simp [Nat.lt_asymm h, h]

/-- Three-way comparison of characters by scalar value (equivalently, by the
byte-wise order of their UTF-8 encodings), as Rust compares `char`s. -/
def chCmp (a b : Char) : Ordering :=
  if a < b then Ordering.lt else if b < a then Ordering.gt else Ordering.eq

theorem chCmp_eq_eq {a b : Char} : chCmp a b = Ordering.eq ↔ a = b := by
  unfold chCmp
  rcases lt_trichotomy a b with h | h | h
  · simp [h, ne_of_lt h]
  · simp [h, lt_irrefl]
  · simp [lt_asymm h, h, (ne_of_lt h).symm]

theorem chCmp_eq_lt {a b : Char} : chCmp a b = Ordering.lt ↔ a < b := by
  unfold chCmp
  rcases lt_trichotomy a b with h | h | h
  · simp [h]
  · simp [h, lt_irrefl]
  · simp [lt_asymm h, h]

theorem chCmp_eq_gt {a b : Char} : chCmp a b = Ordering.gt ↔ b < a := by
  unfold chCmp
  rcases lt_trichotomy a b with h | h | h
  · simp [h, lt_asymm h]
  · simp [h, lt_irrefl]
  · simp [lt_asymm h, h]

/-- Lexicographic three-way comparison of character lists: the order Rust uses
for `String` (byte-wise on UTF-8, equivalently scalar-value lexicographic). -/
def lexCmp : List Char → List Char → Ordering
  | [], [] => Ordering.eq
  | [], _ :: _ => Ordering.lt
  | _ :: _, [] => Ordering.gt
  | a :: as, b :: bs =>
    match chCmp a b with
    | Ordering.eq => lexCmp as bs
    | o => o

theorem lexCmp_self : ∀ l : List Char, lexCmp l l = Ordering.eq
  | [] => rfl
  | a :: as => by
    have h : chCmp a a = Ordering.eq := chCmp_eq_eq.mpr rfl
    simp [lexCmp, h, lexCmp_self as]

theorem lexCmp_eq_eq : ∀ {x y : List Char}, lexCmp x y = Ordering.eq ↔ x = y
  | [], [] => by simp [lexCmp]
  | [], _ :: _ => by simp [lexCmp]
  | _ :: _, [] => by simp [lexCmp]
  | a :: as, b :: bs => by
    constructor
    · intro h
      unfold lexCmp at h
      rcases hc : chCmp a b with hl | he | hg
      · rw [hc] at h; exact absurd h (by simp)
      · rw [hc] at h
        have hab : a = b := chCmp_eq_eq.mp hc
        have : as = bs := lexCmp_eq_eq.mp h
        rw [hab, this]
      · rw [hc] at h; exact absurd h (by simp)
    · intro h
      cases h
      exact lexCmp_self _

theorem lexCmp_swap : ∀ x y : List Char, lexCmp y x = (lexCmp x y).swap
  | [], [] => rfl
  | [], _ :: _ => rfl
  | _ :: _, [] => rfl
  | a :: as, b :: bs => by
    unfold lexCmp
    rcases hc : chCmp a b with hl | he | hg
    · have : chCmp b a = Ordering.gt := chCmp_eq_gt.mpr (chCmp_eq_lt.mp hc)
      simp [this, hc, Ordering.swap]
    · have hab : a = b := chCmp_eq_eq.mp hc
      have : chCmp b a = Ordering.eq := chCmp_eq_eq.mpr hab.symm
      simp [this, lexCmp_swap as bs]
    · have : chCmp b a = Ordering.lt := chCmp_eq_lt.mpr (chCmp_eq_gt.mp hc)
      simp [this, Ordering.swap]

theorem lexCmp_lt_trans : ∀ {x y z : List Char},
    lexCmp x y = Ordering.lt → lexCmp y z = Ordering.lt → lexCmp x z = Ordering.lt
  | [], [], _, h1, _ => by simp [lexCmp] at h1
  | [], _ :: _, [], _, h2 => by simp [lexCmp] at h2
  | [], _ :: _, _ :: _, _, _ => rfl
  | _ :: _, [], _, h1, _ => by simp [lexCmp] at h1
  | _ :: _, _ :: _, [], _, h2 => by simp [lexCmp] at h2
  | a :: as, b :: bs, c :: cs, h1, h2 => by
    unfold lexCmp at h1 h2 ⊢
    rcases hab : chCmp a b with h | h | h <;> rw [hab] at h1
    · rcases hbc : chCmp b c with h' | h' | h' <;> rw [hbc] at h2
      · have : chCmp a c = Ordering.lt :=
          chCmp_eq_lt.mpr (lt_trans (chCmp_eq_lt.mp hab) (chCmp_eq_lt.mp hbc))
        simp [this]
      · have hbc' : b = c := chCmp_eq_eq.mp hbc
        have : chCmp a c = Ordering.lt := by
          rw [← hbc']; exact hab
        simp [this]
      · exact absurd h2 (by simp)
    · have hab' : a = b := chCmp_eq_eq.mp hab
      rcases hbc : chCmp b c with h' | h' | h' <;> rw [hbc] at h2
      · have : chCmp a c = Ordering.lt := by rw [hab']; exact hbc
        simp [this]
      · have : chCmp a c = Ordering.eq := by
          rw [hab']; exact hbc
        simp [this]
        exact lexCmp_lt_trans h1 h2
      · exact absurd h2 (by simp)
    · exact absurd h1 (by simp)

/-- Byte-wise lexicographic three-way comparison of strings: Rust's
`String::cmp`. -/
def strCmp (a b : String) : Ordering := lexCmp a.data b.data

theorem string_eq_of_data_eq : ∀ {a b : String}, a.data = b.data → a = b := by
  intro a b h
  cases a
  cases b
  simp at h
  simp [h]

theorem strCmp_eq_eq {a b : String} : strCmp a b = Ordering.eq ↔ a = b := by
  unfold strCmp
  constructor
  · intro h
    exact string_eq_of_data_eq (lexCmp_eq_eq.mp h)
  · intro h
    cases h
    exact lexCmp_self _

theorem strCmp_swap (a b : String) : strCmp b a = (strCmp a b).swap :=
  lexCmp_swap a.data b.data

theorem strCmp_lt_trans {a b c : String} :
    strCmp a b = Ordering.lt → strCmp b c = Ordering.lt → strCmp a c = Ordering.lt :=
  lexCmp_lt_trans

/-- Rust's total order on strings, as a relation: a precedes-or-equals b. -/
def strLe (a b : String) : Prop := strCmp a b ≠ Ordering.gt

instance : DecidableRel strLe := fun a b => by
  unfold strLe
  infer_instance

theorem strLe_total (a b : String) : strLe a b ∨ strLe b a := by
  unfold strLe
  rcases h : strCmp a b with h1 | h1 | h1
  · left; simp [h]
  · left; simp [h]
  · right
    rw [strCmp_swap, h]
    simp [Ordering.swap]

theorem strLe_antisymm {a b : String} (h1 : strLe a b) (h2 : strLe b a) : a = b := by
  unfold strLe at h1 h2
  rw [strCmp_swap] at h2
  rcases h : strCmp a b with h' | h' | h'
  · rw [h] at h2; exact (h2 rfl).elim
  · exact strCmp_eq_eq.mp h
  · exact absurd h h1

theorem strLe_trans {a b c : String} (h1 : strLe a b) (h2 : strLe b c) : strLe a c := by
  unfold strLe at h1 h2 ⊢
  rcases hab : strCmp a b with h | h | h
  · rcases hbc : strCmp b c with h' | h' | h'
    · simp [strCmp_lt_trans hab hbc]
    · rw [← strCmp_eq_eq.mp hbc, hab]; simp
    · exact absurd hbc h2
  · rw [strCmp_eq_eq.mp hab]
    exact h2
  · exact absurd hab h1

instance : IsTotal String strLe := ⟨strLe_total⟩

instance : IsTrans String strLe := ⟨fun _ _ _ => strLe_trans⟩

instance : IsAntisymm String strLe := ⟨fun _ _ => strLe_antisymm⟩

/-- Model of Rust's `HashMap<String, V>`: an association list whose insert
overwrites any previous binding of the key.  The entry list plays the role of
the map's contents; its order stands in for the (arbitrary) iteration order. -/
structure HMap (V : Type) where
  entries : List (String × V)
deriving DecidableEq

/-- Insert a binding, overwriting any previous binding of the key
(`HashMap::insert`). -/
def HMap.insert {V : Type} (m : HMap V) (k : String) (v : V) : HMap V :=
  ⟨(k, v) :: m.entries.filter (fun p => p.1 != k)⟩

/-- Look a key up (`HashMap::get`). -/
def HMap.get? {V : Type} (m : HMap V) (k : String) : Option V :=
  (m.entries.find? (fun p => p.1 == k)).map (fun p => p.2)

/-- The keys of the map, in the model's iteration order (`HashMap::keys`). -/
def HMap.keys {V : Type} (m : HMap V) : List String :=
  m.entries.map (fun p => p.1)

/-- Build a map from a list of pairs by inserting them left to right, as
Rust's `collect::<HashMap<_, _>>()` does: a later pair with the same key
overwrites an earlier one. -/
def hmOfPairs {V : Type} (ps : List (String × V)) : HMap V :=
  ps.foldl (fun m p => m.insert p.1 p.2) ⟨[]⟩

theorem find?_filter_of_imp {α : Type} (p q : α → Bool)
    (h : ∀ x, p x = true → q x = true) :
    ∀ l : List α, (l.filter q).find? p = l.find? p := by
  intro l
  induction l with
  | nil => rfl
  | cons x xs ih =>
    by_cases hq : q x = true
    · rw [List.filter_cons_of_pos hq]
      by_cases hp : p x = true
      · rw [List.find?_cons_of_pos _ hp, List.find?_cons_of_pos _ hp]
      · rw [List.find?_cons_of_neg _ hp, List.find?_cons_of_neg _ hp]
        exact ih
    · have hp : ¬ p x = true := fun hc => hq (h x hc)
      rw [List.filter_cons_of_neg (by simpa using hq), List.find?_cons_of_neg _ hp]
      exact ih

theorem HMap.get?_insert {V : Type} (m : HMap V) (a k : String) (v : V) :
    (m.insert a v).get? k = if k = a then some v else m.get? k := by
  unfold HMap.insert HMap.get?
  by_cases h : k = a
  · subst h
    simp only [List.find?_cons_of_pos _ (show ((k, v).1 == k) = true by simp)]
    simp
  · have hcons : List.find? (fun p : String × V => p.1 == k)
        ((a, v) :: m.entries.filter (fun p => p.1 != a)) =
        List.find? (fun p => p.1 == k) (m.entries.filter (fun p => p.1 != a)) :=
      List.find?_cons_of_neg _ (by simp [Ne.symm h])
    rw [hcons]
    rw [find?_filter_of_imp (fun p => p.1 == k) (fun p => p.1 != a)
      (by
        intro x hx
        have hxk : x.1 = k := by simpa using hx
        simp [hxk, h]) m.entries]
    simp [h]

/-- One row of the ranking listing page, as seen through the DocumentView
boundary: the first profile-link href of the row and the text of the row's
fourth `td` cell (the page count).  Rows missing either are a fatal error in
the source and are outside this model. -/
structure MainRow where
  href : String
  pagecount : String
deriving DecidableEq

/-- Final path segment of an href, as `userurl.split("/").last().unwrap()`:
splitting on "/" always yields at least one piece, so the default is never
used. -/
def lastPathSegment (url : String) : String :=
  (url.splitOn "/").getLastD ""

/-- Embedding of `parse_mainpage` (src/main.rs lines 40-76): walk the rows in
document order, keep the user id (final path segment of the link) of every
row whose page-count text is not exactly the string "0.0". -/
def parse_mainpage (rows : List MainRow) : List String :=
  rows.foldl
    (fun users r =>
      if r.pagecount ≠ "0.0" then users ++ [lastPathSegment r.href] else users)
    []

/-- Embedding of the `countmap` construction in `parse_userpage`
(src/main.rs lines 102-121): the retained header labels are zipped
positionally with the parsed first-row counts and collected into a map.
`List.zip` truncates to the shorter list, exactly as Rust's `Iterator::zip`
does, so no error is possible here. -/
def buildCountmap (headings : List String) (rawcounts : List ℚ) : HMap ℚ :=
  hmOfPairs (headings.zip rawcounts)

/-- Embedding of the `seriesmap` construction in `parse_userpage`
(src/main.rs lines 153-175): pair the extracted series names with the
extracted data arrays positionally; if there is exactly one name, also insert
the first data array under the free-text language label `langs`.  The source
indexes `dataarrays[0]` unconditionally, which panics when no data array was
extracted; `none` models that panic. -/
def buildSeriesmap (seriesnames : List String) (dataarrays : List (List ℚ))
    (langs : String) : Option (HMap (List ℚ)) :=
  match dataarrays with
  | [] => none
  | d0 :: _ =>
    let m := hmOfPairs (seriesnames.zip dataarrays)
    some (if seriesnames.length = 1 then m.insert langs d0 else m)

/-- Embedding of the `UserInfo` record (src/main.rs lines 78-84). -/
structure UserInfo where
  name : String
  countmap : HMap ℚ
  seriesmap : HMap (List ℚ)
  totalpoints : ℚ
deriving DecidableEq

instance : Inhabited UserInfo := ⟨⟨"", ⟨[]⟩, ⟨[]⟩, 0⟩⟩

/-- Metric value of the user at index `x` of `users` under `keyfn`; the source
only ever evaluates it at indices drawn from `0..users.len()`, so the default
record is never consulted. -/
def getv (users : List UserInfo) (keyfn : UserInfo → ℚ) (x : Nat) : ℚ :=
  keyfn (users.getD x default)

/-- The user indices `0..users.len()` sorted so that metric values descend
(src/main.rs line 232 sorts with `getv(b).partial_cmp(&getv(a))`).  The
source's `sort_unstable_by` promises only a correctly ordered permutation;
this model fixes insertion sort as one such permutation. -/
def sortedIdx (users : List UserInfo) (keyfn : UserInfo → ℚ) : List Nat :=
  List.insertionSort (fun a b => getv users keyfn b ≤ getv users keyfn a)
    (List.range users.length)

/-- After sorting, truncate to `maxentries` when it is nonzero
(src/main.rs lines 233-235). -/
def truncIdx (users : List UserInfo) (maxentries : Nat) (keyfn : UserInfo → ℚ) :
    List Nat :=
  if maxentries ≠ 0 then (sortedIdx users keyfn).take maxentries
  else sortedIdx users keyfn

/-- After truncating, retain only indices whose metric value is at least 0.01
(src/main.rs line 236). -/
def keptIdx (users : List UserInfo) (maxentries : Nat) (keyfn : UserInfo → ℚ) :
    List Nat :=
  (truncIdx users maxentries keyfn).filter
    (fun x => decide ((1 : ℚ)/100 ≤ getv users keyfn x))

/-- Embedding of `get_table` (src/main.rs lines 225-244): sort descending by
the metric, truncate to `maxentries` if nonzero, drop values below 0.01, and
return the surviving (name, value) pairs. -/
def get_table (users : List UserInfo) (maxentries : Nat) (keyfn : UserInfo → ℚ) :
    List (String × ℚ) :=
  (keptIdx users maxentries keyfn).map
    (fun u => ((users.getD u default).name, getv users keyfn u))

/-- Round a rational to the nearest integer, ties to even: the rounding Rust's
fixed-precision float formatting performs at the last kept digit. -/
def roundHalfEven (q : ℚ) : ℤ :=
  let f := q.floor
  let frac := q - f
  if frac < 1/2 then f
  else if 1/2 < frac then f + 1
  else if f % 2 = 0 then f else f + 1

/-- Exactly two decimal digits, built directly so the fractional part always
has length two. -/
def twoDigits (k : Nat) : String :=
  String.mk [Nat.digitChar (k / 10 % 10), Nat.digitChar (k % 10)]

/-- Embedding of Rust's `{:.2}` formatting of an `f64` (used for every table
value in full mode): round to two decimal places, ties to even, and print
with exactly two digits after the point. -/
def fmtFixed2 (q : ℚ) : String :=
  let n := roundHalfEven (q * 100)
  let m := n.natAbs
  (if q < 0 then "-" else "") ++ toString (m / 100) ++ "." ++ twoDigits (m % 100)

/-- Least exponent k such that the denominator divides 10^k, i.e. the length
of the terminating decimal expansion.  Every value the program handles is a
binary (f64) value, whose reduced denominator is a power of two not exceeding
2^1074, so the search bound 1100 is never hit. -/
def decExpAux (den : Nat) : Nat → Nat → Option Nat
  | 0, _ => none
  | fuel + 1, k => if 10 ^ k % den = 0 then some k else decExpAux den fuel (k + 1)

def decExp (den : Nat) : Option Nat :=
  decExpAux den 1101 0

/-- Left-pad the fractional digits with zeros to width k. -/
def padDigits (k : Nat) (fp : Nat) : String :=
  String.mk (List.replicate (k - (toString fp).length) '0') ++ toString fp

/-- Embedding of Rust's default `{}` formatting of an `f64` (used for the
values in the brief narrative): the shortest decimal string that round-trips,
which for the terminating-decimal values the program displays is the exact
expansion with no trailing zeros, and no decimal point for integers. -/
def fmtDisplay (q : ℚ) : String :=
  let sign := if q < 0 then "-" else ""
  let n := q.num.natAbs
  match decExp q.den with
  | none => sign ++ toString n ++ "/" ++ toString q.den
  | some 0 => sign ++ toString n
  | some (k + 1) =>
    let scaled := n * 10 ^ (k + 1) / q.den
    sign ++ toString (scaled / 10 ^ (k + 1)) ++ "." ++
      padDigits (k + 1) (scaled % 10 ^ (k + 1))

/-- Embedding of `print_table` (src/main.rs lines 246-262) as the string it
writes: a title line (or HTML heading), one "rank. name value" line per row
with the value in two-decimal form, and a closing blank line (or `</p>`). -/
def print_table (title : String) (table : List (String × ℚ)) (html : Bool) :
    String :=
  (if html then "<p><h5>" ++ title ++ "</h5>\n<p>\n" else title ++ "\n")
  ++ String.join (table.enum.map (fun p =>
      toString (p.1 + 1) ++ ". " ++ p.2.1 ++ " " ++ fmtFixed2 p.2.2 ++
        (if html then "<br />" else "") ++ "\n"))
  ++ (if html then "</p>\n" else "\n")

/-- The MEDIUM_DESCRIPTION lookup with its `unwrap_or` fallback
(src/main.rs lines 301-312 and 341-343). -/
def medium_description (m : String) : String :=
  match m with
  | "Book" => "book pages read"
  | "Full Game" => "full game screens read"
  | "Game" => "game screens read"
  | "Lyrics" => "lyrics read"
  | "Manga" => "manga pages read"
  | "Net" => "net pages read"
  | "News" => "news articles read"
  | "Nico" => "nico watched"
  | "Sentences" => "sentences read"
  | "Subs" => "minutes of subs watched"
  | _ => "raw counts"

/-- The MEDIUM_ACTOR lookup with its fallback (src/main.rs lines 313-324 and
345-347). -/
def medium_actor (m : String) : String :=
  match m with
  | "Book" => "book reader"
  | "Full Game" => "full-game reader"
  | "Game" => "game reader"
  | "Lyrics" => "lyric reader"
  | "Manga" => "manga reader"
  | "Net" => "net reader"
  | "News" => "news reader"
  | "Nico" => "nico reader/watcher"
  | "Sentences" => "sentence reader"
  | "Subs" => "subs reader/watcher"
  | _ => "thing reader"

/-- The MEDIUM_UNITS lookup with its fallback (src/main.rs lines 325-336 and
349-351). -/
def medium_units (m : String) : String :=
  match m with
  | "Book" => "pages"
  | "Full Game" => "screens"
  | "Game" => "screens"
  | "Lyrics" => "lyrics"
  | "Manga" => "pages"
  | "Net" => "pages"
  | "News" => "articles"
  | "Nico" => "nico"
  | "Sentences" => "sentences"
  | "Subs" => "minutes"
  | _ => "raw units"

/-- Embedding of `print_brief_medium_table` (src/main.rs lines 353-372) as
the string it writes.  Note the faithful oddities of the source: the entries
consulted are `table.get(1)` and `table.get(2)` (the second and third rows),
the values are printed with default `{}` formatting, and `closeulli` is the
string "</ul></li>" in the plain-text branch too. -/
def print_brief_medium_table (m : String) (table : List (String × ℚ))
    (html : Bool) : String :=
  let ulli := if html then "<ul><li>" else ""
  let closeulli := if html then "</ul></li>" else "</ul></li>"
  match table.get? 1 with
  | none => ""
  | some (name, value) =>
    (ulli ++ name ++ " is our top " ++ medium_actor m ++ " with " ++
      fmtDisplay value ++ " " ++ medium_description m ++ ".\n")
    ++ match table.get? 2 with
      | some (name2, value2) =>
        ulli ++ "Honorable mention goes to " ++ name2 ++ " with " ++
          fmtDisplay value2 ++ " " ++ medium_units m ++ " recorded.\n" ++
          closeulli ++ closeulli ++ "\n"
      | none => closeulli ++ "\n"

/-- Modelled from the spec: the external ISO 639-1 code-to-name lookup (the
`isolang` crate's `Language::from_639_1(..).to_name()`), which is not part of
this repository.  Representative two-letter codes suffice; the repository's
own logic only adds the "jp" special case and the "unidentified" fallback. -/
def iso639_name : String → Option String
  | "en" => some "English"
  | "fr" => some "French"
  | "es" => some "Spanish"
  | "de" => some "German"
  | "zh" => some "Chinese"
  | "ru" => some "Russian"
  | "ko" => some "Korean"
  | "vi" => some "Vietnamese"
  | "it" => some "Italian"
  | "pt" => some "Portuguese"
  | "el" => some "Greek"
  | "eo" => some "Esperanto"
  | "nl" => some "Dutch"
  | "sv" => some "Swedish"
  | "hr" => some "Croatian"
  | "ja" => some "Japanese"
  | _ => none

/-- Embedding of `langcode_to_name` (src/main.rs lines 264-273): "jp" is
special-cased to "Japanese"; otherwise the ISO lookup with "unidentified" as
the fallback. -/
def langcode_to_name (code : String) : String :=
  match code with
  | "jp" => "Japanese"
  | _ => (iso639_name code).getD "unidentified"

/-- Embedding of `lang_table_title` (src/main.rs lines 275-281). -/
def lang_table_title (l : String) (table : List (String × ℚ)) : String :=
  match table.length with
  | 1 => "Top " ++ langcode_to_name l ++ " (" ++ l ++ ") reader"
  | _ => "Top " ++ toString table.length ++ " " ++ langcode_to_name l ++
      " (" ++ l ++ ") readers"

/-- The fixed language preference list (src/main.rs line 287). -/
def langlist : List String :=
  ["jp", "en", "fr", "es", "de", "zh", "ru", "ko", "vi", "it", "pt", "el",
   "eo", "nl", "sv", "hr"]

/-- Position of the first occurrence of `s` in a list, as
`Iterator::position`. -/
def posIn (s : String) : List String → Option Nat
  | [] => none
  | x :: rest => if x = s then some 0 else (posIn s rest).map (fun n => n + 1)

/-- Embedding of `lang_sort_idx` (src/main.rs lines 286-289). -/
def lang_sort_idx (s : String) : Option Nat :=
  posIn s langlist

/-- Embedding of `lang_comparator` (src/main.rs lines 291-298): two listed
codes compare by list position, a listed code precedes an unlisted one, and
two unlisted codes compare lexicographically. -/
def lang_comparator (a b : String) : Ordering :=
  match lang_sort_idx a, lang_sort_idx b with
  | some ai, some bi => natCmp ai bi
  | some _, none => Ordering.lt
  | none, some _ => Ordering.gt
  | none, none => strCmp a b

/-- The sort relation induced by `lang_comparator`: a precedes-or-equals b. -/
def langLe (a b : String) : Prop := lang_comparator a b ≠ Ordering.gt

instance : DecidableRel langLe := fun a b => by
  unfold langLe
  infer_instance

/-- Removal of consecutive duplicates, as Rust's `Vec::dedup` (used on the
sorted medium and language key lists, src/main.rs lines 381 and 388). -/
def dedupAdj : List String → List String
  | [] => []
  | [a] => [a]
  | a :: b :: t => if a = b then dedupAdj (b :: t) else a :: dedupAdj (b :: t)

/-- The sorted, deduplicated list of category labels appearing across all
records (src/main.rs lines 377-381): every user's countmap keys are
concatenated, sorted in Rust's string order, and stripped of consecutive
duplicates. -/
def mediaList (users : List UserInfo) : List String :=
  dedupAdj (List.insertionSort strLe
    (users.flatMap (fun u => u.countmap.keys)))

/-- The sorted, deduplicated list of language keys appearing across all
records, excluding "Overall" (src/main.rs lines 383-388), ordered by
`lang_comparator`. -/
def languagesList (users : List UserInfo) : List String :=
  dedupAdj (List.insertionSort langLe
    (users.flatMap (fun u => u.seriesmap.keys.filter (fun k => k != "Overall"))))

/-- The per-category metric (src/main.rs line 400): the user's count for the
category, 0 when absent. -/
def metricFor (m : String) : UserInfo → ℚ :=
  fun u => (u.countmap.get? m).getD 0

/-- The per-language metric (src/main.rs lines 414-417): the sum of the
user's daily series for the language, over the empty series when absent. -/
def langMetric (l : String) : UserInfo → ℚ :=
  fun u => ((u.seriesmap.get? l).getD []).foldl (fun sum x => sum + x) 0

/-- One iteration of the medium loop of `print_stats` (src/main.rs lines
399-411): an empty table contributes nothing (`continue`); otherwise brief
or full rendering of the capped table. -/
def mediumSection (users : List UserInfo) (brief html : Bool) (m : String) :
    String :=
  let table := get_table users 3 (metricFor m)
  if table.length = 0 then ""
  else if brief then print_brief_medium_table m table html
  else print_table (m ++ " rankings (" ++ medium_description m ++ ")") table html

/-- One iteration of the language loop of `print_stats` (src/main.rs lines
413-423). -/
def languageSection (users : List UserInfo) (html : Bool) (l : String) :
    String :=
  let table := get_table users 10 (langMetric l)
  if table.length = 0 then ""
  else print_table (lang_table_title l table) table html

/-- The category labels for which the medium loop actually emits a table:
those whose capped, filtered table is non-empty (the loop's `continue`
guard, src/main.rs lines 401-403). -/
def emittedMedia (users : List UserInfo) : List String :=
  (mediaList users).filter
    (fun m => decide ((get_table users 3 (metricFor m)).length ≠ 0))

/-- Embedding of `print_stats` (src/main.rs lines 374-424) as the string it
writes: the Overall table (printed unconditionally), the MEDIUM CHAMPS
heading in HTML mode, the per-medium sections in sorted label order, then
the per-language sections in `lang_comparator` order. -/
def print_stats (users : List UserInfo) (brief html : Bool) : String :=
  print_table "Overall rankings" (get_table users 0 (fun u => u.totalpoints)) html
  ++ (if html then "<h4>MEDIUM CHAMPS</h4>\n\n" else "")
  ++ String.join ((mediaList users).map (mediumSection users brief html))
  ++ String.join ((languagesList users).map (languageSection users html))

/-- C1: for every list of user records and every metric function, `get_table`
returns (name, value) pairs sorted in descending order of metric value; when
`maxentries` (the cap) is nonzero the sorted index list is truncated to the
first `maxentries` entries before the threshold filter, so the result has at
most `maxentries` entries; and the filter drops every value below 0.01, so no
returned value is below 0.01. -/
theorem get_table_sorted_capped_filtered
    (users : List UserInfo) (cap : Nat) (keyfn : UserInfo → ℚ) :
    (get_table users cap keyfn).Pairwise (fun p q => q.2 ≤ p.2)
    ∧ (∀ p ∈ get_table users cap keyfn, (1 : ℚ)/100 ≤ p.2)
    ∧ (cap ≠ 0 → (get_table users cap keyfn).length ≤ cap) := by
  have hsorted : (sortedIdx users keyfn).Pairwise
      (fun a b => getv users keyfn b ≤ getv users keyfn a) := by
    unfold sortedIdx
    haveI : IsTotal Nat (fun a b => getv users keyfn b ≤ getv users keyfn a) :=
      ⟨fun a b => le_total _ _⟩
    haveI : IsTrans Nat (fun a b => getv users keyfn b ≤ getv users keyfn a) :=
      ⟨fun a b c h1 h2 => le_trans h2 h1⟩
    exact List.sorted_insertionSort _ _
  have htrunc : (truncIdx users cap keyfn).Pairwise
      (fun a b => getv users keyfn b ≤ getv users keyfn a) := by
    unfold truncIdx
    by_cases h : cap ≠ 0
    · rw [if_pos h]
      exact hsorted.sublist (List.take_sublist _ _)
    · rw [if_neg h]
      exact hsorted
  have hkept : (keptIdx users cap keyfn).Pairwise
      (fun a b => getv users keyfn b ≤ getv users keyfn a) :=
    htrunc.sublist (List.filter_sublist _)
  refine ⟨?_, ?_, ?_⟩
  · unfold get_table
    exact (List.pairwise_map).mpr hkept
  · intro p hp
    unfold get_table at hp
    rcases List.mem_map.mp hp with ⟨u, hu, hfu⟩
    have hmem := List.mem_filter.mp hu
    have hq : (1 : ℚ)/100 ≤ getv users keyfn u := of_decide_eq_true hmem.2
    rw [← hfu]
    exact hq
  · intro hcap
    unfold get_table keptIdx truncIdx
    rw [List.length_map, if_pos hcap]
    exact le_trans (List.length_filter_le _ _) (List.length_take_le _ _)

/-- Witness for C1 at a concrete input: two users, cap 1. -/
theorem get_table_sorted_capped_filtered_witness :
    (get_table [⟨"A", ⟨[]⟩, ⟨[]⟩, 1⟩, ⟨"B", ⟨[]⟩, ⟨[]⟩, 2⟩] 1
      (fun u => u.totalpoints)).length ≤ 1 :=
  (get_table_sorted_capped_filtered
    [⟨"A", ⟨[]⟩, ⟨[]⟩, 1⟩, ⟨"B", ⟨[]⟩, ⟨[]⟩, 2⟩] 1
    (fun u => u.totalpoints)).2.2 (by decide)

/-- C3 (code bug): the brief narrative is built from `table.get(1)` and
`table.get(2)` - the second and third rows - not the top two.  Evaluating the
embedding at concrete tables shows that a one-row table produces no narrative
at all, and a three-row table names the second- and third-ranked entries
("B", "C") while never mentioning the top entry "A", contradicting both the
spec and the source's own comment that it prints "the top two contenders". -/
theorem brief_table_skips_top_entry :
    print_brief_medium_table "Book" [("A", 5)] false = ""
    ∧ print_brief_medium_table "Book" [("A", 5), ("B", 4), ("C", 3)] false =
      "B is our top book reader with 4 book pages read.\n" ++
      "Honorable mention goes to C with 3 pages recorded.\n</ul></li></ul></li>\n" := by
  constructor
  · with_unfolding_all decide
  · with_unfolding_all decide

/-- C4 counterexample: a brief-mode narrative renders the metric value 1.5
as "1.5" (Rust's default `{}` float formatting), not as the two-decimal
"1.50" that `fmtFixed2` (Rust's `{:.2}`) would produce, so not every
displayed metric value is rendered with two decimal places. -/
theorem brief_value_not_two_decimals :
    print_brief_medium_table "Book" [("A", 1), ("B", 3/2)] false =
      "B is our top book reader with 1.5 book pages read.\n</ul></li>\n"
    ∧ fmtFixed2 (3/2) = "1.50" := by
  constructor
  · with_unfolding_all decide
  · with_unfolding_all decide

/-- C4 amended: full-mode table lines have the form "rank. name value" with
the value rendered by the two-decimal formatter, whose output always ends in
a point followed by exactly two digits; brief-mode sentences render the
value with the default formatter instead. -/
theorem value_display_formats :
    (∀ q : ℚ, ∃ pre : String, ∃ k : Nat,
      fmtFixed2 q = pre ++ "." ++ twoDigits k ∧ (twoDigits k).length = 2)
    ∧ (∀ (title : String) (table : List (String × ℚ)),
      print_table title table false =
        title ++ "\n" ++
        String.join (table.enum.map (fun p =>
          toString (p.1 + 1) ++ ". " ++ p.2.1 ++ " " ++ fmtFixed2 p.2.2 ++ "\n"))
        ++ "\n")
    ∧ (∀ (m name0 n : String) (v0 v : ℚ),
      print_brief_medium_table m [(name0, v0), (n, v)] false =
        n ++ " is our top " ++ medium_actor m ++ " with " ++ fmtDisplay v ++
          " " ++ medium_description m ++ ".\n</ul></li>\n") := by
  refine ⟨?_, ?_, ?_⟩
  · intro q
    refine ⟨(if q < 0 then "-" else "") ++
      toString ((roundHalfEven (q * 100)).natAbs / 100),
      (roundHalfEven (q * 100)).natAbs % 100, ?_, rfl⟩
    unfold fmtFixed2
    simp [String.append_assoc]
  · intro title table
    unfold print_table
    simp
  · intro m name0 n v0 v
    unfold print_brief_medium_table
    simp [String.append_assoc]
    rfl

/-- One user whose total and only count are zero: every rank table built from
this record set is empty after the 0.01 filter. -/
def emptyOverallUser : UserInfo :=
  ⟨"A", hmOfPairs [("Book", 0)], hmOfPairs [("Overall", [0])], 0⟩

/-- C5 counterexample: with every table empty after filtering, `print_stats`
still prints the "Overall rankings" title line - the Overall table is not
guarded by the empty-table check the per-category and per-language loops
have, so an empty Overall table does contribute output to the report. -/
theorem overall_title_printed_when_empty :
    get_table [emptyOverallUser] 0 (fun u => u.totalpoints) = []
    ∧ print_stats [emptyOverallUser] false false = "Overall rankings\n\n" := by
  constructor
  · with_unfolding_all decide
  · with_unfolding_all decide

/-- C5 amended: a per-category or per-language table with zero surviving rows
contributes no output at all, but the Overall table is always rendered,
title included, even when it has zero surviving rows. -/
theorem empty_tables_omitted_except_overall :
    (∀ (users : List UserInfo) (brief html : Bool) (m : String),
      get_table users 3 (metricFor m) = [] → mediumSection users brief html m = "")
    ∧ (∀ (users : List UserInfo) (html : Bool) (l : String),
      get_table users 10 (langMetric l) = [] → languageSection users html l = "")
    ∧ (∀ (users : List UserInfo) (brief html : Bool), ∃ rest : String,
      print_stats users brief html =
        print_table "Overall rankings"
          (get_table users 0 (fun u => u.totalpoints)) html ++ rest) := by
  refine ⟨?_, ?_, ?_⟩
  · intro users brief html m h
    unfold mediumSection
    rw [h]
    rfl
  · intro users html l h
    unfold languageSection
    rw [h]
    rfl
  · intro users brief html
    refine ⟨(if html then "<h4>MEDIUM CHAMPS</h4>\n\n" else "")
      ++ (String.join ((mediaList users).map (mediumSection users brief html))
        ++ String.join ((languagesList users).map (languageSection users html))), ?_⟩
    unfold print_stats
    simp [String.append_assoc]

/-- Witness for C5 amended at a concrete input: the Book table of the
zero-count record set is empty, and its medium section is the empty
string. -/
theorem empty_tables_omitted_except_overall_witness :
    mediumSection [emptyOverallUser] false false "Book" = "" :=
  empty_tables_omitted_except_overall.1 [emptyOverallUser] false false "Book"
    (by with_unfolding_all decide)

/-- C6: when exactly one series (name, data) pair was extracted, the final
series map binds both the free-text language label and the single series name
to that same data array, so the entry keyed by the language label is
element-wise equal to the "Overall" (single) series; when the label differs
from the series name it is a genuinely additional entry (the map has two
keys). -/
theorem single_series_duplicated (n : String) (d : List ℚ) (langs : String) :
    ∃ m : HMap (List ℚ), buildSeriesmap [n] [d] langs = some m
      ∧ m.get? langs = some d
      ∧ m.get? n = some d
      ∧ (langs ≠ n → m.keys.length = 2) := by
  refine ⟨(hmOfPairs [(n, d)]).insert langs d, rfl, ?_, ?_, ?_⟩
  · rw [HMap.get?_insert]
    simp
  · rw [HMap.get?_insert]
    by_cases h : n = langs
    · simp [h]
    · rw [if_neg h]
      simp [hmOfPairs, HMap.insert, HMap.get?, List.find?]
  · intro h
    have hne : (n != langs) = true := by
      simp
      exact Ne.symm h
    simp [hmOfPairs, HMap.insert, HMap.keys, hne]

/-- Witness for C6 at a concrete input: a single series named "Overall" and
the language label "jp". -/
theorem single_series_duplicated_witness :
    ∃ m : HMap (List ℚ), buildSeriesmap ["Overall"] [[294, 0, 8]] "jp" = some m
      ∧ m.get? "jp" = some [294, 0, 8]
      ∧ m.get? "Overall" = some [294, 0, 8]
      ∧ m.keys.length = 2 := by
  obtain ⟨m, h1, h2, h3, h4⟩ := single_series_duplicated "Overall" [294, 0, 8] "jp"
  exact ⟨m, h1, h2, h3, h4 (by decide)⟩

theorem parse_mainpage_foldl_general (rows : List MainRow) (acc : List String) :
    rows.foldl
      (fun users r =>
        if r.pagecount ≠ "0.0" then users ++ [lastPathSegment r.href] else users)
      acc =
    acc ++ (rows.filter (fun r => r.pagecount != "0.0")).map
      (fun r => lastPathSegment r.href) := by
  induction rows generalizing acc with
  | nil => simp
  | cons r rest ih =>
    rw [List.foldl_cons]
    by_cases h : r.pagecount = "0.0"
    · rw [if_neg (fun hne => hne h)]
      rw [List.filter_cons_of_neg (by simp [h])]
      exact ih acc
    · rw [if_pos h]
      rw [List.filter_cons_of_pos (by simp [h])]
      rw [ih (acc ++ [lastPathSegment r.href])]
      simp

/-- C7: `parse_mainpage` returns, preserving document order, the final path
segment of each row's profile-link href, for exactly those rows whose
page-count cell text is not the exact string "0.0"; the comparison is
textual, so rows whose page count reads "0" or "0.00" are kept. -/
theorem parse_mainpage_filters (rows : List MainRow) :
    parse_mainpage rows =
      (rows.filter (fun r => r.pagecount != "0.0")).map
        (fun r => lastPathSegment r.href)
    ∧ (∀ r ∈ rows, (r.pagecount = "0" ∨ r.pagecount = "0.00") →
        lastPathSegment r.href ∈ parse_mainpage rows) := by
  have hmain := parse_mainpage_foldl_general rows []
  constructor
  · unfold parse_mainpage
    simpa using hmain
  · intro r hr hz
    unfold parse_mainpage
    rw [hmain]
    simp only [List.nil_append]
    apply List.mem_map_of_mem
    rw [List.mem_filter]
    refine ⟨hr, ?_⟩
    rcases hz with h | h <;> simp [h]

/-- Witness for C7 at a concrete roster: rows with page counts "638.9",
"0.0", "0": the "0.0" row is dropped, the "0" row is kept. -/
theorem parse_mainpage_filters_witness :
    parse_mainpage [⟨"/users/801", "638.9"⟩, ⟨"/users/9", "0.0"⟩, ⟨"/users/10", "0"⟩]
      = ["801", "10"]
    ∧ "10" ∈ parse_mainpage
        [⟨"/users/801", "638.9"⟩, ⟨"/users/9", "0.0"⟩, ⟨"/users/10", "0"⟩] := by
  constructor
  · with_unfolding_all decide
  · have h := (parse_mainpage_filters
      [⟨"/users/801", "638.9"⟩, ⟨"/users/9", "0.0"⟩, ⟨"/users/10", "0"⟩]).2
      ⟨"/users/10", "0"⟩ (by simp) (Or.inl rfl)
    have e : lastPathSegment (MainRow.mk "/users/10" "0").href = "10" := by
      with_unfolding_all decide
    rw [e] at h
    exact h

theorem hmOfPairs_get?_general {V : Type} (ps : List (String × V)) (m : HMap V)
    (k : String) :
    (ps.foldl (fun m p => m.insert p.1 p.2) m).get? k =
      match ps.reverse.find? (fun p => p.1 == k) with
      | some q => some q.2
      | none => m.get? k := by
  induction ps generalizing m with
  | nil => simp
  | cons p rest ih =>
    rw [List.foldl_cons, ih, List.reverse_cons, List.find?_append]
    cases hf : rest.reverse.find? (fun p => p.1 == k) with
    | some q => simp [Option.or]
    | none =>
      simp only [Option.none_or]
      rw [HMap.get?_insert]
      by_cases hk : p.1 = k
      · rw [List.find?_cons_of_pos _ (by simp [hk])]
        simp [hk]
      · rw [List.find?_cons_of_neg _ (by simp [hk])]
        rw [if_neg (fun hc => hk hc.symm)]
        simp

theorem hmOfPairs_get? {V : Type} (ps : List (String × V)) (k : String) :
    (hmOfPairs ps).get? k =
      (ps.reverse.find? (fun p => p.1 == k)).map (fun p => p.2) := by
  unfold hmOfPairs
  rw [hmOfPairs_get?_general]
  cases hf : ps.reverse.find? (fun p => p.1 == k) with
  | some q => simp
  | none => simp [HMap.get?]

theorem find?_reverse_of_unique {α : Type} (l : List α) (p : α → Bool)
    (huniq : ∀ x ∈ l, ∀ y ∈ l, p x = true → p y = true → x = y) :
    l.reverse.find? p = l.find? p := by
  cases hf : l.find? p with
  | none =>
    rw [List.find?_eq_none] at hf ⊢
    intro x hx
    exact hf x (List.mem_reverse.mp hx)
  | some x =>
    have hpx : p x = true := List.find?_some hf
    have hxl : x ∈ l := List.mem_of_find?_eq_some hf
    have hsome : (l.reverse.find? p).isSome := by
      rw [List.find?_isSome]
      exact ⟨x, List.mem_reverse.mpr hxl, hpx⟩
    cases hg : l.reverse.find? p with
    | none => rw [hg] at hsome; simp at hsome
    | some y =>
      have hpy : p y = true := List.find?_some hg
      have hyl : y ∈ l := List.mem_reverse.mp (List.mem_of_find?_eq_some hg)
      rw [huniq y hyl x hxl hpy hpx]

theorem map_fst_zip_eq_take {α β : Type} :
    ∀ (hs : List α) (cs : List β), (hs.zip cs).map Prod.fst = hs.take cs.length
  | [], _ => by simp
  | _ :: _, [] => by simp
  | a :: t, c :: ct => by
    rw [List.zip_cons_cons, List.map_cons, map_fst_zip_eq_take t ct]
    rfl

theorem eq_of_mem_of_nodup_fst {α β : Type} :
    ∀ (l : List (α × β)), (l.map Prod.fst).Nodup →
      ∀ x ∈ l, ∀ y ∈ l, x.1 = y.1 → x = y := by
  intro l
  induction l with
  | nil => intro _ x hx; simp at hx
  | cons a t ih =>
    intro hnd x hx y hy hxy
    rw [List.map_cons, List.nodup_cons] at hnd
    rcases List.mem_cons.mp hx with hxa | hxt <;>
      rcases List.mem_cons.mp hy with hya | hyt
    · rw [hxa, hya]
    · exfalso
      apply hnd.1
      have : a.1 = y.1 := by rw [← hxa]; exact hxy
      rw [this]
      exact List.mem_map_of_mem Prod.fst hyt
    · exfalso
      apply hnd.1
      have : a.1 = x.1 := by rw [← hya]; exact hxy.symm
      rw [this]
      exact List.mem_map_of_mem Prod.fst hxt
    · exact ih hnd.2 x hxt y hyt hxy

theorem zip_find?_at (hs : List String) (cs : List ℚ) :
    ∀ (i : Nat) (h1 : i < hs.length) (h2 : i < cs.length), hs.Nodup →
    (hs.zip cs).find? (fun p => p.1 == hs.get ⟨i, h1⟩) =
      some (hs.get ⟨i, h1⟩, cs.get ⟨i, h2⟩) := by
  induction hs generalizing cs with
  | nil => intro i h1; simp at h1
  | cons a t ih =>
    intro i h1 h2 hnd
    cases cs with
    | nil => simp at h2
    | cons c ct =>
      rw [List.nodup_cons] at hnd
      cases i with
      | zero =>
        rw [List.zip_cons_cons]
        rw [List.find?_cons_of_pos _ (by simp)]
        rfl
      | succ j =>
        have hj1 : j < t.length := by
          simpa using h1
        have hj2 : j < ct.length := by
          simpa using h2
        have hkey : (a :: t).get ⟨j + 1, h1⟩ = t.get ⟨j, hj1⟩ := rfl
        have hane : a ≠ t.get ⟨j, hj1⟩ := by
          intro hc
          exact hnd.1 (hc ▸ List.get_mem t j hj1)
        rw [List.zip_cons_cons, hkey]
        rw [List.find?_cons_of_neg _ (by
          simp
          intro hc
          exact hane (by simpa using hc))]
        exact ih ct j hj1 hj2 hnd.2

theorem zip_find?_none (hs : List String) (cs : List ℚ) (i : Nat)
    (h1 : i < hs.length) (hge : cs.length ≤ i) (hnd : hs.Nodup) :
    (hs.zip cs).find? (fun p => p.1 == hs.get ⟨i, h1⟩) = none := by
  rw [List.find?_eq_none]
  intro x hx hpx
  have hx1 : x.1 = hs.get ⟨i, h1⟩ := by simpa using hpx
  have hmemtake : x.1 ∈ hs.take cs.length := by
    rw [← map_fst_zip_eq_take hs cs]
    exact List.mem_map_of_mem Prod.fst hx
  rcases List.mem_iff_getElem.mp hmemtake with ⟨j, hj, hjx⟩
  have hjlen : j < cs.length := by
    have hh := hj
    rw [List.length_take] at hh
    omega
  have hjhs : j < hs.length := by
    have hh := hj
    rw [List.length_take] at hh
    omega
  have hget : hs.get ⟨j, hjhs⟩ = hs.get ⟨i, h1⟩ := by
    have h2 : (hs.take cs.length)[j] = hs[j] := List.getElem_take hs
    simp only [List.get_eq_getElem]
    rw [← h2, hjx, hx1]
    simp [List.get_eq_getElem]
  have hfin : (⟨j, hjhs⟩ : Fin hs.length) = ⟨i, h1⟩ := hnd.get_inj_iff.mp hget
  have : j = i := by simpa using hfin
  omega

theorem hmOfPairs_entries_length {V : Type} :
    ∀ (ps : List (String × V)) (m : HMap V),
      (ps.map Prod.fst).Nodup →
      (∀ p ∈ ps, m.get? p.1 = none) →
      ((ps.foldl (fun m p => m.insert p.1 p.2) m).entries).length
        = ps.length + m.entries.length := by
  intro ps
  induction ps with
  | nil =>
    intro m _ _
    simp
  | cons p rest ih =>
    intro m hnd hnone
    rw [List.foldl_cons]
    rw [List.map_cons, List.nodup_cons] at hnd
    have hfilter : m.entries.filter (fun q => q.1 != p.1) = m.entries := by
      rw [List.filter_eq_self]
      intro a ha
      have hfind := hnone p (List.mem_cons_self p rest)
      unfold HMap.get? at hfind
      rw [Option.map_eq_none'] at hfind
      rw [List.find?_eq_none] at hfind
      have := hfind a ha
      simpa using this
    have hins_entries : (m.insert p.1 p.2).entries = (p.1, p.2) :: m.entries := by
      unfold HMap.insert
      rw [hfilter]
    have hrest : ∀ q ∈ rest, (m.insert p.1 p.2).get? q.1 = none := by
      intro q hq
      rw [HMap.get?_insert]
      rw [if_neg (fun hc => by
        apply hnd.1
        rw [← hc]
        exact List.mem_map_of_mem Prod.fst hq)]
      exact hnone q (List.mem_cons_of_mem p hq)
    rw [ih (m.insert p.1 p.2) hnd.2 hrest, hins_entries]
    simp
    omega

/-- C9: `parse_userpage` pairs header labels with first-row counts by a
truncating positional zip, so a label/count arity mismatch produces no error:
with distinct labels, position i has its count for i below both lengths, a
surplus label (position at or beyond the count list) is silently absent from
the map, and the map has exactly min(labels, counts) entries. -/
theorem countmap_zip_truncates (hs : List String) (cs : List ℚ)
    (hnd : hs.Nodup) :
    (∀ (i : Nat) (h1 : i < hs.length) (h2 : i < cs.length),
      (buildCountmap hs cs).get? (hs.get ⟨i, h1⟩) = some (cs.get ⟨i, h2⟩))
    ∧ (∀ (i : Nat) (h1 : i < hs.length), cs.length ≤ i →
      (buildCountmap hs cs).get? (hs.get ⟨i, h1⟩) = none)
    ∧ (buildCountmap hs cs).keys.length = min hs.length cs.length := by
  have hfstnd : ((hs.zip cs).map Prod.fst).Nodup := by
    rw [map_fst_zip_eq_take]
    exact (List.take_sublist _ _).nodup hnd
  have huniq : ∀ (key : String) (x : String × ℚ), x ∈ hs.zip cs →
      ∀ y ∈ hs.zip cs, (x.1 == key) = true → (y.1 == key) = true → x = y := by
    intro key x hx y hy hpx hpy
    refine eq_of_mem_of_nodup_fst _ hfstnd x hx y hy ?_
    have ex : x.1 = key := by simpa using hpx
    have ey : y.1 = key := by simpa using hpy
    rw [ex, ey]
  refine ⟨?_, ?_, ?_⟩
  · intro i h1 h2
    unfold buildCountmap
    rw [hmOfPairs_get?]
    rw [find?_reverse_of_unique _ _ (huniq (hs.get ⟨i, h1⟩))]
    rw [zip_find?_at hs cs i h1 h2 hnd]
    rfl
  · intro i h1 hge
    unfold buildCountmap
    rw [hmOfPairs_get?]
    rw [find?_reverse_of_unique _ _ (huniq (hs.get ⟨i, h1⟩))]
    rw [zip_find?_none hs cs i h1 hge hnd]
    rfl
  · unfold buildCountmap hmOfPairs HMap.keys
    rw [List.length_map]
    rw [hmOfPairs_entries_length (hs.zip cs) ⟨[]⟩ hfstnd (fun p _ => rfl)]
    simp

/-- Witness for C9 at a concrete input: three labels, two counts. -/
theorem countmap_zip_truncates_witness :
    (buildCountmap ["Book", "Manga", "Net"] [91, 5]).get? "Net" = none
    ∧ (buildCountmap ["Book", "Manga", "Net"] [91, 5]).get? "Book" = some 91
    ∧ (buildCountmap ["Book", "Manga", "Net"] [91, 5]).keys.length = 2 := by
  have h := countmap_zip_truncates ["Book", "Manga", "Net"] [91, 5] (by decide)
  refine ⟨?_, ?_, ?_⟩
  · have hh := h.2.1 2 (by decide) (by decide)
    simpa using hh
  · have hh := h.1 0 (by decide) (by decide)
    simpa using hh
  · have hh := h.2.2
    simpa using hh

theorem posIn_some (s : String) :
    ∀ (l : List String) (i : Nat), posIn s l = some i →
      ∃ h : i < l.length, l.get ⟨i, h⟩ = s := by
  intro l
  induction l with
  | nil => intro i h; simp [posIn] at h
  | cons x rest ih =>
    intro i h
    unfold posIn at h
    by_cases hx : x = s
    · rw [if_pos hx] at h
      have : i = 0 := by
        cases h
        rfl
      subst this
      exact ⟨by simp, hx⟩
    · rw [if_neg hx] at h
      rcases Option.map_eq_some'.mp h with ⟨j, hj, hij⟩
      rcases ih j hj with ⟨hjl, hget⟩
      subst hij
      exact ⟨by simpa using hjl, hget⟩

/-- C10: `lang_comparator` is a total order on language-code strings: the
strict order is transitive, Equal arises only between identical strings, two
codes on the preference list compare by list position, a listed code precedes
any unlisted code, and two unlisted codes compare lexicographically. -/
theorem lang_comparator_total_order :
    (∀ a b c : String, lang_comparator a b = Ordering.lt →
      lang_comparator b c = Ordering.lt → lang_comparator a c = Ordering.lt)
    ∧ (∀ a b : String, lang_comparator a b = Ordering.eq ↔ a = b)
    ∧ (∀ (a b : String) (i j : Nat), lang_sort_idx a = some i →
      lang_sort_idx b = some j → lang_comparator a b = natCmp i j)
    ∧ (∀ (a b : String) (i : Nat), lang_sort_idx a = some i →
      lang_sort_idx b = none → lang_comparator a b = Ordering.lt)
    ∧ (∀ a b : String, lang_sort_idx a = none → lang_sort_idx b = none →
      lang_comparator a b = strCmp a b) := by
  refine ⟨?_, ?_, ?_, ?_, ?_⟩
  · intro a b c h1 h2
    unfold lang_comparator at h1 h2 ⊢
    cases hia : lang_sort_idx a with
    | some ai =>
      cases hib : lang_sort_idx b with
      | some bi =>
        rw [hia, hib] at h1
        cases hic : lang_sort_idx c with
        | some ci =>
          rw [hib, hic] at h2
          have hab : ai < bi := natCmp_eq_lt.mp h1
          have hbc : bi < ci := natCmp_eq_lt.mp h2
          simpa using natCmp_eq_lt.mpr (Nat.lt_trans hab hbc)
        | none => simp
      | none =>
        cases hic : lang_sort_idx c with
        | some ci =>
          rw [hib, hic] at h2
          exact absurd h2 (by simp)
        | none => simp
    | none =>
      cases hib : lang_sort_idx b with
      | some bi =>
        rw [hia, hib] at h1
        exact absurd h1 (by simp)
      | none =>
        rw [hia, hib] at h1
        cases hic : lang_sort_idx c with
        | some ci =>
          rw [hib, hic] at h2
          exact absurd h2 (by simp)
        | none =>
          rw [hib, hic] at h2
          simpa using strCmp_lt_trans h1 h2
  · intro a b
    unfold lang_comparator
    cases hia : lang_sort_idx a with
    | some ai =>
      cases hib : lang_sort_idx b with
      | some bi =>
        simp only []
        constructor
        · intro h
          have hij : ai = bi := natCmp_eq_eq.mp (by simpa using h)
          rcases posIn_some a langlist ai hia with ⟨ha, hga⟩
          rcases posIn_some b langlist bi hib with ⟨hb, hgb⟩
          rw [← hga, ← hgb]
          subst hij
          rfl
        · intro h
          subst h
          rw [hia] at hib
          have : ai = bi := by
            cases hib
            rfl
          subst this
          simpa using natCmp_eq_eq.mpr rfl
      | none =>
        constructor
        · intro h
          exact absurd h (by simp)
        · intro h
          subst h
          rw [hia] at hib
          exact absurd hib (by simp)
    | none =>
      cases hib : lang_sort_idx b with
      | some bi =>
        constructor
        · intro h
          exact absurd h (by simp)
        · intro h
          subst h
          rw [hia] at hib
          exact absurd hib (by simp)
      | none =>
        simpa using strCmp_eq_eq
  · intro a b i j hia hib
    unfold lang_comparator
    rw [hia, hib]
  · intro a b i hia hib
    unfold lang_comparator
    rw [hia, hib]
  · intro a b hia hib
    unfold lang_comparator
    rw [hia, hib]

/-- Witness for C10 at concrete codes: "jp" and "en" are listed, "zz" is
not. -/
theorem lang_comparator_total_order_witness :
    lang_comparator "jp" "fr" = Ordering.lt
    ∧ lang_comparator "jp" "jp" = Ordering.eq
    ∧ lang_comparator "en" "zz" = Ordering.lt := by
  refine ⟨?_, ?_, ?_⟩
  · exact lang_comparator_total_order.1 "jp" "en" "fr"
      (by decide) (by decide)
  · exact (lang_comparator_total_order.2.1 "jp" "jp").mpr rfl
  · exact lang_comparator_total_order.2.2.2.1 "en" "zz" 1
      (by decide) (by decide)

theorem dedupAdj_sublist : ∀ l : List String, (dedupAdj l).Sublist l
  | [] => by simp [dedupAdj]
  | [a] => by simp [dedupAdj]
  | a :: b :: t => by
    unfold dedupAdj
    by_cases h : a = b
    · rw [if_pos h]
      exact (dedupAdj_sublist (b :: t)).cons a
    · rw [if_neg h]
      exact (dedupAdj_sublist (b :: t)).cons₂ a

theorem mem_dedupAdj : ∀ (l : List String) (x : String), x ∈ dedupAdj l ↔ x ∈ l
  | [], x => by simp [dedupAdj]
  | [a], x => by simp [dedupAdj]
  | a :: b :: t, x => by
    unfold dedupAdj
    by_cases h : a = b
    · rw [if_pos h]
      rw [mem_dedupAdj (b :: t) x]
      subst h
      simp [List.mem_cons]
    · rw [if_neg h]
      simp [mem_dedupAdj (b :: t) x]

theorem nodup_dedupAdj_of_sorted : ∀ l : List String,
    l.Pairwise strLe → (dedupAdj l).Nodup
  | [], _ => by simp [dedupAdj]
  | [a], _ => by simp [dedupAdj]
  | a :: b :: t, hp => by
    unfold dedupAdj
    by_cases h : a = b
    · rw [if_pos h]
      exact nodup_dedupAdj_of_sorted (b :: t) (List.pairwise_cons.mp hp).2
    · rw [if_neg h]
      rw [List.nodup_cons]
      refine ⟨?_, nodup_dedupAdj_of_sorted (b :: t) (List.pairwise_cons.mp hp).2⟩
      intro hmem
      have hx : a ∈ b :: t := (mem_dedupAdj (b :: t) a).mp hmem
      rcases List.mem_cons.mp hx with hab | hat
      · exact h hab
      · have h1 : strLe a b := (List.pairwise_cons.mp hp).1 b (List.mem_cons_self b t)
        have h2 : strLe b a :=
          (List.pairwise_cons.mp (List.pairwise_cons.mp hp).2).1 a hat
        exact h (strLe_antisymm h1 h2)

theorem insertionSort_strLe_canonical {l1 l2 : List String} (h : l1.Perm l2) :
    List.insertionSort strLe l1 = List.insertionSort strLe l2 :=
  List.eq_of_perm_of_sorted
    ((List.perm_insertionSort strLe l1).trans
      (h.trans (List.perm_insertionSort strLe l2).symm))
    (List.sorted_insertionSort strLe l1)
    (List.sorted_insertionSort strLe l2)

/-- One record observing the labels "Book" (with a zero count) and "Manga"
(with a nonzero count). -/
def zeroBookUser : UserInfo :=
  ⟨"A", hmOfPairs [("Book", 0), ("Manga", 5)], hmOfPairs [("Overall", [5])], 5⟩

/-- C8 counterexample: "Book" is a distinct category label observed across
the records, yet the medium loop emits no Book table at all (its capped table
is empty after the 0.01 filter, so the loop skips it) - the emitted tables do
not include every observed label exactly once. -/
theorem observed_label_without_table :
    "Book" ∈ mediaList [zeroBookUser]
    ∧ emittedMedia [zeroBookUser] = ["Manga"]
    ∧ mediumSection [zeroBookUser] false false "Book" = "" := by
  refine ⟨?_, ?_, ?_⟩ <;> with_unfolding_all decide

/-- C8 amended: the per-category tables are emitted in ascending
lexicographic (byte-wise string) order of category label, each distinct
observed label appearing at most once - exactly once when its capped table
survives the 0.01 filter, not at all otherwise - and the emitted list is
invariant under permutation of the concatenated hash-map key enumerations. -/
theorem media_tables_sorted_dedup_hash_independent :
    (∀ users1 users2 : List UserInfo,
      (users1.flatMap (fun u => u.countmap.keys)).Perm
        (users2.flatMap (fun u => u.countmap.keys)) →
      mediaList users1 = mediaList users2)
    ∧ (∀ users : List UserInfo, (emittedMedia users).Pairwise strLe)
    ∧ (∀ users : List UserInfo, (emittedMedia users).Nodup)
    ∧ (∀ (users : List UserInfo) (m : String),
      m ∈ emittedMedia users ↔
        (m ∈ users.flatMap (fun u => u.countmap.keys)
          ∧ (get_table users 3 (metricFor m)).length ≠ 0)) := by
  have hsorted : ∀ users : List UserInfo, (mediaList users).Pairwise strLe := by
    intro users
    unfold mediaList
    exact (List.sorted_insertionSort strLe _).sublist (dedupAdj_sublist _)
  refine ⟨?_, ?_, ?_, ?_⟩
  · intro u1 u2 h
    unfold mediaList
    rw [insertionSort_strLe_canonical h]
  · intro users
    unfold emittedMedia
    exact (hsorted users).sublist (List.filter_sublist _)
  · intro users
    unfold emittedMedia
    apply (List.filter_sublist _).nodup
    unfold mediaList
    exact nodup_dedupAdj_of_sorted _ (List.sorted_insertionSort strLe _)
  · intro users m
    unfold emittedMedia
    rw [List.mem_filter]
    constructor
    · rintro ⟨h1, h2⟩
      have hm1 : m ∈ List.insertionSort strLe
          (users.flatMap fun u => u.countmap.keys) := by
        unfold mediaList at h1
        exact (mem_dedupAdj _ m).mp h1
      exact ⟨(List.perm_insertionSort strLe _).mem_iff.mp hm1,
        of_decide_eq_true h2⟩
    · rintro ⟨h1, h2⟩
      refine ⟨?_, decide_eq_true h2⟩
      unfold mediaList
      exact (mem_dedupAdj _ m).mpr
        ((List.perm_insertionSort strLe _).mem_iff.mpr h1)

/-- Witness for C8 amended at a concrete input: "Manga" is observed and its
table survives, so it is among the emitted media. -/
theorem media_tables_sorted_dedup_witness :
    "Manga" ∈ emittedMedia [zeroBookUser] :=
  (media_tables_sorted_dedup_hash_independent.2.2.2 [zeroBookUser] "Manga").mpr
    ⟨by with_unfolding_all decide, by with_unfolding_all decide⟩
